import Mathlib

/-!
Shallow embedding of the wildfire dispatch engine
(src/backend/p1_models.py, p1_resources.py, p1_system.py).

Modelling conventions:
* Python `datetime` timestamps are embedded as `Int`; only their total
  order matters to the comparator and the sort.
* Python `float` costs are embedded as `Int` (the source only adds and
  compares them; all configured values are integers).
* Python `dict`s (the resource pool, configuration maps) are embedded as
  association lists in insertion order; a real `dict` additionally has
  pairwise-distinct keys, which appears as a `Nodup` side condition where
  a theorem needs it.
* Python `list.sort()` / `sorted()` are stable ascending sorts; they are
  embedded as `List.mergeSort` with `le a b := ¬ (b < a)` for the
  source's `__lt__` (respectively the `key=` projection), which is the
  stable-sort semantics the CPython documentation guarantees.
* In-place mutation is embedded as explicit state passing; a `KeyError`
  raised by dict indexing is embedded as an `Option` result of `none`.
-/

namespace WildfireSpec

/-- `Severity` enum from p1_models.py. -/
inductive Severity where
  | low
  | medium
  | high
deriving DecidableEq, Repr

/-- `Severity.priority`: maps severity to priority number (LOW=1, MEDIUM=2, HIGH=3). -/
def Severity.priority : Severity → Nat
  | .low => 1
  | .medium => 2
  | .high => 3

/-- The string `value` of each enum member (`"low"`, `"medium"`, `"high"`). -/
def Severity.value : Severity → String
  | .low => "low"
  | .medium => "medium"
  | .high => "high"

/-- `ResourceType` dataclass from p1_models.py. -/
structure ResourceType where
  name : String
  deployment_time_minutes : Int
  cost : Int
  total_units : Int
  used_units : Int
deriving DecidableEq, Repr

/-- `ResourceType.available_units`: derived quantity `total_units - used_units`. -/
def ResourceType.available_units (r : ResourceType) : Int :=
  r.total_units - r.used_units

/-- A configuration dictionary entry for one resource kind; absent keys are
`none` (`config.get(key, 0)` in the source defaults them to zero). -/
structure ResourceConfig where
  deployment_time_minutes : Option Int := none
  cost : Option Int := none
  total_units : Option Int := none
  used_units : Option Int := none
deriving DecidableEq, Repr

/-- `ResourceType.from_dict`: builds a `ResourceType` from a config dict,
defaulting every missing field to zero (including `used_units`, which the
config may also set explicitly). -/
def ResourceType.from_dict (name : String) (config : ResourceConfig) : ResourceType :=
  { name := name
    deployment_time_minutes := config.deployment_time_minutes.getD 0
    cost := config.cost.getD 0
    total_units := config.total_units.getD 0
    used_units := config.used_units.getD 0 }

/-- `WildfireEvent` dataclass from p1_models.py. -/
structure WildfireEvent where
  timestamp : Int
  fire_start_time : Int
  location : String
  severity : Severity
  handled : Bool := false
  assigned_resource : Option String := none
deriving DecidableEq, Repr

/-- `WildfireEvent.__lt__`: order by timestamp ascending, then by severity
priority descending when timestamps are equal. -/
def WildfireEvent.lt (a b : WildfireEvent) : Bool :=
  if a.timestamp ≠ b.timestamp then decide (a.timestamp < b.timestamp)
  else decide (b.severity.priority < a.severity.priority)

/-- The `le` comparison induced by `WildfireEvent.__lt__` under Python's
stable ascending sort: `a` may stay before `b` exactly when `¬ (b < a)`. -/
def eventSortLE (a b : WildfireEvent) : Bool :=
  ! WildfireEvent.lt b a

/-- Stable insertion of `a` into `s`: `a` lands in front of the first
element `b` with `le a b`, hence after every earlier element it ties with. -/
def insertLE {α : Type} (le : α → α → Bool) (a : α) : List α → List α
  | [] => [a]
  | b :: s => if le a b then a :: b :: s else b :: insertLE le a s

/-- Python's `sorted` / `list.sort`: a stable ascending sort with respect
to `le`.  It is modelled by stable insertion sort, which computes the same
list as any other stable sort for a transitive, total `le` (Timsort
included): the output is the unique `le`-sorted permutation in which
elements the comparison cannot distinguish keep their input order. -/
def pySorted {α : Type} (le : α → α → Bool) : List α → List α
  | [] => []
  | x :: l => insertLE le x (pySorted le l)

/-- `self.events.sort()` from `load_data`: Python's stable ascending sort
driven by `WildfireEvent.__lt__`. -/
def pythonSortEvents (l : List WildfireEvent) : List WildfireEvent :=
  pySorted eventSortLE l

/-- The resource pool: the `self.resources` dict, as an association list in
insertion order. -/
abbrev Pool := List (String × ResourceType)

/-- `ResourcePool.DEFAULT_RESOURCES` from p1_resources.py; the config
fields are `⟨deployment_time_minutes, cost, total_units, used_units⟩`. -/
def DEFAULT_RESOURCES : List (String × ResourceConfig) :=
  [("smoke_jumpers", ⟨some 30, some 5000, some 5, none⟩),
   ("fire_engines", ⟨some 60, some 2000, some 10, none⟩),
   ("helicopters", ⟨some 45, some 8000, some 3, none⟩),
   ("tanker_planes", ⟨some 120, some 15000, some 2, none⟩),
   ("ground_crews", ⟨some 90, some 3000, some 8, none⟩)]

/-- Python `dict.update`: an existing key is overwritten in place (keeping
its position), a new key is appended in the update's order. -/
def dictUpdate (base extra : List (String × ResourceConfig)) :
    List (String × ResourceConfig) :=
  extra.foldl (fun acc kv =>
    if acc.any (fun p => p.1 == kv.1)
    then acc.map (fun p => if p.1 == kv.1 then kv else p)
    else acc ++ [kv]) base

/-- `ResourcePool.__init__`: copy the defaults, update with the custom
configuration, then build every `ResourceType` via `from_dict`.  (When
`custom_resources` is `None` or empty the update step is skipped in the
source, which coincides with updating by the empty list.) -/
def makePool (custom_resources : List (String × ResourceConfig)) : Pool :=
  (dictUpdate DEFAULT_RESOURCES custom_resources).map
    (fun p => (p.1, ResourceType.from_dict p.1 p.2))

/-- Dict lookup `self.resources[name]` as an `Option` (first entry with the
key; `none` is the `KeyError` case). -/
def lookupResource (pool : Pool) (name : String) : Option ResourceType :=
  (pool.find? (fun p => p.1 == name)).map Prod.snd

/-- The `key=lambda x: x[1].cost` comparison used by `sorted` in
`get_best_available_resource`. -/
def costLE (a b : String × ResourceType) : Bool :=
  decide (a.2.cost ≤ b.2.cost)

/-- The availability filter of `get_best_available_resource`. -/
def availableEntries (pool : Pool) : Pool :=
  pool.filter (fun p => decide (0 < p.2.available_units))

/-- `ResourcePool.get_best_available_resource`: keep the entries with
`available_units > 0`; if none remain return `None`; otherwise stably sort
by cost and return the first name.  The `severity` parameter is accepted
but never read, exactly as in the source. -/
def get_best_available_resource (pool : Pool) (severity : Severity) :
    Option String :=
  match availableEntries pool with
  | [] => none
  | l => ((pySorted costLE l).head?).map Prod.fst

/-- The in-place `resource.used_units += 1` on the dict entry named `name`. -/
def incrIfNamed (name : String) (p : String × ResourceType) :
    String × ResourceType :=
  if p.1 == name then (p.1, { p.2 with used_units := p.2.used_units + 1 }) else p

/-- `ResourcePool.assign_resource`: index the dict (a missing name raises
`KeyError`, embedded as `none`); if the resource has `available_units > 0`
increment its `used_units` and return `True`, else return `False` with no
mutation. -/
def assign_resource (pool : Pool) (resource_name : String) :
    Option (Pool × Bool) :=
  match lookupResource pool resource_name with
  | none => none
  | some r =>
    if 0 < r.available_units
    then some (pool.map (incrIfNamed resource_name), true)
    else some (pool, false)

/-- `ResourcePool.get_resource_status`: `(name, total, used, available)` per
entry. -/
def get_resource_status (pool : Pool) : List (String × Int × Int × Int) :=
  pool.map (fun p => (p.1, p.2.total_units, p.2.used_units, p.2.available_units))

/-- A dict keyed by the three severities (damage costs, statistics). -/
structure SeverityTable (α : Type) where
  low : α
  medium : α
  high : α
deriving DecidableEq, Repr

/-- Read a `SeverityTable` at one severity. -/
def SeverityTable.get {α : Type} (t : SeverityTable α) : Severity → α
  | .low => t.low
  | .medium => t.medium
  | .high => t.high

/-- Write a `SeverityTable` at one severity. -/
def SeverityTable.set {α : Type} (t : SeverityTable α) (s : Severity) (a : α) :
    SeverityTable α :=
  match s with
  | .low => { t with low := a }
  | .medium => { t with medium := a }
  | .high => { t with high := a }

/-- `self.statistics[...][severity.value] += 1`. -/
def SeverityTable.bump (t : SeverityTable Nat) (s : Severity) : SeverityTable Nat :=
  t.set s (t.get s + 1)

/-- One entry of `self.event_log`: a SUCCESS record carries the resource
name and its cost, a MISSED record carries the damage cost charged. -/
inductive LogEntry where
  | success (timestamp : Int) (severity : Severity) (resource : String) (cost : Int)
  | missed (timestamp : Int) (severity : Severity) (damage_cost : Int)
deriving DecidableEq, Repr

/-- Whether a log entry is a SUCCESS record. -/
def LogEntry.isSuccessRecord : LogEntry → Bool
  | .success _ _ _ _ => true
  | .missed _ _ _ => false

/-- The mutable state of a `WildfireResponseSystem` instance (the file I/O
side effects of the source carry no decision logic and are omitted). -/
structure SystemState where
  pool : Pool
  damage_costs : SeverityTable Int
  operational_costs : Int
  missed_response_costs : Int
  addressed_stats : SeverityTable Nat
  missed_stats : SeverityTable Nat
  events : List WildfireEvent
  event_log : List LogEntry
deriving DecidableEq, Repr

/-- The default damage-cost table from `WildfireResponseSystem.__init__`. -/
def defaultDamageCosts : SeverityTable Int :=
  { low := 50000, medium := 100000, high := 200000 }

/-- The damage-cost override loop of `__init__`: for each severity in enum
order, take the custom value keyed by `severity.value` when present. -/
def initDamageCosts (custom_damage_costs : List (String × Int)) : SeverityTable Int :=
  [Severity.low, Severity.medium, Severity.high].foldl
    (fun t s =>
      match custom_damage_costs.find? (fun p => p.1 == s.value) with
      | some kv => t.set s kv.2
      | none => t)
    defaultDamageCosts

/-- `WildfireResponseSystem.__init__`: fresh pool, damage table, zeroed
accounting and statistics, empty event queue and log. -/
def mkSystem (custom_resources : List (String × ResourceConfig))
    (custom_damage_costs : List (String × Int)) : SystemState :=
  { pool := makePool custom_resources
    damage_costs := initDamageCosts custom_damage_costs
    operational_costs := 0
    missed_response_costs := 0
    addressed_stats := ⟨0, 0, 0⟩
    missed_stats := ⟨0, 0, 0⟩
    events := []
    event_log := [] }

/-- One CSV row as read by `load_data` before conversion. -/
structure RawRecord where
  timestamp : Int
  fire_start_time : Int
  location : String
  severity : String
deriving DecidableEq, Repr

/-- ASCII lower-casing of one character (`str.lower` restricted to the
ASCII range, which covers every severity token). -/
def lowerChar (c : Char) : Char :=
  if 65 ≤ c.toNat ∧ c.toNat ≤ 90 then Char.ofNat (c.toNat + 32) else c

/-- `row['severity'].lower()`. -/
def lowerString (s : String) : String :=
  ⟨s.data.map lowerChar⟩

/-- `Severity(row['severity'].lower())`: enum lookup by value after
lower-casing; an unmatched token raises `ValueError` (`none` here). -/
def parseSeverity (s : String) : Option Severity :=
  if lowerString s == "low" then some Severity.low
  else if lowerString s == "medium" then some Severity.medium
  else if lowerString s == "high" then some Severity.high
  else none

/-- Conversion of one row into a `WildfireEvent` inside the load loop. -/
def parseRow (r : RawRecord) : Option WildfireEvent :=
  (parseSeverity r.severity).map (fun sev =>
    { timestamp := r.timestamp
      fire_start_time := r.fire_start_time
      location := r.location
      severity := sev })

/-- The row loop of `load_data`: each parsed event is appended to
`self.events` as it is built; the first bad severity raises, leaving the
already-appended prefix in place and skipping the final sort.  The `Bool`
records whether the load completed. -/
def load_data_aux (events : List WildfireEvent) :
    List RawRecord → List WildfireEvent × Bool
  | [] => (pythonSortEvents events, true)
  | r :: rest =>
    match parseRow r with
    | none => (events, false)
    | some e => load_data_aux (events ++ [e]) rest

/-- `WildfireResponseSystem.load_data` acting on the system state. -/
def load_data (st : SystemState) (rows : List RawRecord) : SystemState × Bool :=
  match load_data_aux st.events rows with
  | (evs, ok) => ({ st with events := evs }, ok)

/-- `_handle_successful_response`: re-index the pool at the assigned name
(a `KeyError` would propagate, hence the `Option`), mark the event handled,
update statistics, operational cost and the log. -/
def handle_successful_response (st : SystemState) (ev : WildfireEvent)
    (resource_name : String) : Option (SystemState × WildfireEvent) :=
  match lookupResource st.pool resource_name with
  | none => none
  | some r =>
    some ({ st with
        addressed_stats := st.addressed_stats.bump ev.severity
        operational_costs := st.operational_costs + r.cost
        event_log := st.event_log ++
          [LogEntry.success ev.timestamp ev.severity r.name r.cost] },
      { ev with handled := true, assigned_resource := some resource_name })

/-- `_handle_missed_response`: mark the event unhandled, charge the
severity's damage constant, update statistics and the log. -/
def handle_missed_response (st : SystemState) (ev : WildfireEvent) :
    SystemState × WildfireEvent :=
  ({ st with
      missed_stats := st.missed_stats.bump ev.severity
      missed_response_costs := st.missed_response_costs +
        st.damage_costs.get ev.severity
      event_log := st.event_log ++
        [LogEntry.missed ev.timestamp ev.severity (st.damage_costs.get ev.severity)] },
    { ev with handled := false })

/-- `_handle_event`: `if resource_name and self.resource_pool.assign_resource(resource_name)`.
Python truthiness makes both `None` and the empty string fall straight to
the missed branch without calling `assign_resource`. -/
def handle_event (st : SystemState) (ev : WildfireEvent)
    (resource_name : Option String) : Option (SystemState × WildfireEvent) :=
  match resource_name with
  | some n =>
    if n ≠ "" then
      match assign_resource st.pool n with
      | none => none
      | some (pool2, true) => handle_successful_response { st with pool := pool2 } ev n
      | some (pool2, false) => some (handle_missed_response { st with pool := pool2 } ev)
    else some (handle_missed_response st ev)
  | none => some (handle_missed_response st ev)

/-- The loop body of `process_events`: select a candidate from the current
pool, then handle the event; processed events accumulate in order. -/
def process_events_aux (st : SystemState) (done : List WildfireEvent) :
    List WildfireEvent → Option SystemState
  | [] => some { st with events := done }
  | ev :: rest =>
    match handle_event st ev (get_best_available_resource st.pool ev.severity) with
    | none => none
    | some (st2, ev2) => process_events_aux st2 (done ++ [ev2]) rest

/-- `WildfireResponseSystem.process_events`. -/
def process_events (st : SystemState) : Option SystemState :=
  process_events_aux st [] st.events

/-- The final report of `_generate_report_data`. -/
structure Report where
  total_events : Nat
  fires_addressed : Nat
  fires_missed : Nat
  operational_costs : Int
  damage_costs : Int
  addressed_report : SeverityTable Nat
  missed_report : SeverityTable Nat
  resource_utilization : List (String × Int × Int × Int)
  avg_cost_per_response : Rat
deriving DecidableEq, Repr

/-- `sum(self.statistics["addressed"].values())`. -/
def totalAddressed (st : SystemState) : Nat :=
  st.addressed_stats.low + st.addressed_stats.medium + st.addressed_stats.high

/-- `sum(self.statistics["missed"].values())`. -/
def totalMissed (st : SystemState) : Nat :=
  st.missed_stats.low + st.missed_stats.medium + st.missed_stats.high

/-- `_generate_report_data` (the division is exact rational division,
guarded by `if total_addressed > 0 else 0` as in the source). -/
def generate_report_data (st : SystemState) : Report :=
  { total_events := totalAddressed st + totalMissed st
    fires_addressed := totalAddressed st
    fires_missed := totalMissed st
    operational_costs := st.operational_costs
    damage_costs := st.missed_response_costs
    addressed_report := st.addressed_stats
    missed_report := st.missed_stats
    resource_utilization := get_resource_status st.pool
    avg_cost_per_response :=
      if 0 < totalAddressed st
      then (st.operational_costs : Rat) / (totalAddressed st : Rat)
      else 0 }

/-- Sum of the `cost` field over the SUCCESS entries of a log. -/
def successCostSum (log : List LogEntry) : Int :=
  (log.map (fun e =>
    match e with
    | .success _ _ _ c => c
    | .missed _ _ _ => 0)).sum

/-- Sum of the per-severity damage constant over the MISSED entries of a
log, relative to a damage-cost table. -/
def missedDamageSum (dmg : SeverityTable Int) (log : List LogEntry) : Int :=
  (log.map (fun e =>
    match e with
    | .success _ _ _ _ => 0
    | .missed _ s _ => dmg.get s)).sum

/-- Capacity invariant `0 ≤ used_units ≤ total_units` over the whole pool. -/
def poolInv (pool : Pool) : Bool :=
  pool.all (fun p => decide (0 ≤ p.2.used_units) && decide (p.2.used_units ≤ p.2.total_units))

/-- A sequence of `assign_resource` calls, each acting on the pool the
previous one produced; a `KeyError` stops the sequence. -/
def commitList (pool : Pool) : List String → Pool
  | [] => pool
  | n :: rest =>
    match assign_resource pool n with
    | none => pool
    | some (pool2, _) => commitList pool2 rest

/-- The pairing between a processed event and its own dispatch record:
`handled` matches the record tag, a handled event carries an assigned
resource name, an unhandled one carries none. -/
def OutcomePaired (ev : WildfireEvent) (entry : LogEntry) : Prop :=
  ev.handled = entry.isSuccessRecord ∧
  (ev.handled = true → ∃ n, ev.assigned_resource = some n) ∧
  (ev.handled = false → ev.assigned_resource = none)

/-- A small concrete incident batch used to instantiate theorems. -/
def demoEvents : List WildfireEvent :=
  [{ timestamp := 1, fire_start_time := 0, location := "a", severity := Severity.high },
   { timestamp := 1, fire_start_time := 0, location := "b", severity := Severity.low },
   { timestamp := 2, fire_start_time := 1, location := "c", severity := Severity.medium }]

/-- The state reached by processing `demoEvents` on a default system. -/
def demoRun : SystemState :=
  (process_events { mkSystem [] [] with events := demoEvents }).getD (mkSystem [] [])

/-! ### Properties of the two comparison functions -/

theorem eventSortLE_iff (a b : WildfireEvent) :
    eventSortLE a b = true ↔
      a.timestamp < b.timestamp ∨
        (a.timestamp = b.timestamp ∧ b.severity.priority ≤ a.severity.priority) := by
  unfold eventSortLE WildfireEvent.lt
  by_cases h : b.timestamp = a.timestamp <;> simp [h] <;> omega

theorem eventSortLE_trans (a b c : WildfireEvent) (hab : eventSortLE a b = true)
    (hbc : eventSortLE b c = true) : eventSortLE a c = true := by
  rw [eventSortLE_iff] at hab hbc ⊢
  rcases hab with h1 | ⟨h1, h2⟩ <;> rcases hbc with h3 | ⟨h3, h4⟩ <;> omega

theorem eventSortLE_total (a b : WildfireEvent) :
    (eventSortLE a b || eventSortLE b a) = true := by
  rw [Bool.or_eq_true, eventSortLE_iff, eventSortLE_iff]
  omega

theorem costLE_trans (a b c : String × ResourceType) (hab : costLE a b = true)
    (hbc : costLE b c = true) : costLE a c = true := by
  simp only [costLE, decide_eq_true_eq] at hab hbc ⊢
  omega

theorem costLE_total (a b : String × ResourceType) :
    (costLE a b || costLE b a) = true := by
  simp only [costLE, Bool.or_eq_true, decide_eq_true_eq]
  omega

theorem insertLE_perm {α : Type} (le : α → α → Bool) (a : α) (s : List α) :
    (insertLE le a s).Perm (a :: s) := by
  induction s with
  | nil => exact List.Perm.refl _
  | cons b s ih =>
    unfold insertLE
    by_cases h : le a b
    · rw [if_pos h]
    · rw [if_neg h]
      exact (List.Perm.cons b ih).trans (List.Perm.swap a b s)

theorem pySorted_perm {α : Type} (le : α → α → Bool) (l : List α) :
    (pySorted le l).Perm l := by
  induction l with
  | nil => exact List.Perm.refl _
  | cons x l ih =>
    exact (insertLE_perm le x (pySorted le l)).trans (List.Perm.cons x ih)

theorem sublist_insertLE {α : Type} (le : α → α → Bool) (a : α) (s : List α) :
    s.Sublist (insertLE le a s) := by
  induction s with
  | nil => exact List.nil_sublist _
  | cons b s ih =>
    unfold insertLE
    by_cases h : le a b
    · rw [if_pos h]
      exact List.Sublist.cons a (List.Sublist.refl _)
    · rw [if_neg h]
      exact List.Sublist.cons₂ b ih

theorem cons_sublist_insertLE {α : Type} (le : α → α → Bool) (a : α)
    {s c : List α} (hs : c.Sublist s) (hc : ∀ y ∈ c, le a y = true) :
    (a :: c).Sublist (insertLE le a s) := by
  induction s generalizing c with
  | nil =>
    have hnil : c = [] := List.sublist_nil.mp hs
    subst hnil
    exact List.Sublist.refl _
  | cons b s ih =>
    unfold insertLE
    by_cases h : le a b
    · rw [if_pos h]
      exact List.Sublist.cons₂ a hs
    · rw [if_neg h]
      cases hs with
      | cons _ h2 =>
        exact List.Sublist.cons b (ih h2 hc)
      | cons₂ _ h2 =>
        exact absurd (hc b (List.mem_cons_self b _)) (by simpa using h)

theorem sublist_pySorted {α : Type} (le : α → α → Bool) :
    ∀ {l c : List α}, c.Pairwise (fun x y => le x y = true) →
      c.Sublist l → c.Sublist (pySorted le l) := by
  intro l
  induction l with
  | nil =>
    intro c _ hs
    have hnil : c = [] := List.sublist_nil.mp hs
    subst hnil
    exact List.nil_sublist _
  | cons x l ih =>
    intro c hp hs
    cases hs with
    | cons _ h2 => exact (ih hp h2).trans (sublist_insertLE le x _)
    | cons₂ _ h2 =>
      obtain ⟨hx, hp2⟩ := List.pairwise_cons.mp hp
      exact cons_sublist_insertLE le x (ih hp2 h2) hx

theorem pairwise_insertLE {α : Type} (le : α → α → Bool)
    (htrans : ∀ a b c, le a b = true → le b c = true → le a c = true)
    (htotal : ∀ a b, (le a b || le b a) = true) (a : α) :
    ∀ {s : List α}, s.Pairwise (fun x y => le x y = true) →
      (insertLE le a s).Pairwise (fun x y => le x y = true) := by
  intro s
  induction s with
  | nil =>
    intro _
    simp [insertLE]
  | cons b s ih =>
    intro hp
    obtain ⟨hb, hps⟩ := List.pairwise_cons.mp hp
    unfold insertLE
    by_cases h : le a b
    · rw [if_pos h]
      refine List.pairwise_cons.mpr ⟨?_, hp⟩
      intro y hy
      rcases List.mem_cons.mp hy with rfl | hy2
      · exact h
      · exact htrans a b y h (hb y hy2)
    · rw [if_neg h]
      refine List.pairwise_cons.mpr ⟨?_, ih hps⟩
      intro y hy
      have hy2 : y ∈ a :: s := (insertLE_perm le a s).mem_iff.mp hy
      rcases List.mem_cons.mp hy2 with rfl | hy3
      · have h2 := htotal y b
        cases hab : le y b with
        | true => exact absurd hab h
        | false =>
          rw [hab] at h2
          simpa using h2
      · exact hb y hy3

theorem pairwise_pySorted {α : Type} (le : α → α → Bool)
    (htrans : ∀ a b c, le a b = true → le b c = true → le a c = true)
    (htotal : ∀ a b, (le a b || le b a) = true) (l : List α) :
    (pySorted le l).Pairwise (fun x y => le x y = true) := by
  induction l with
  | nil => simp [pySorted]
  | cons x l ih => exact pairwise_insertLE le htrans htotal x ih

/-- A stable sort leaves each class of mutually `le`-related elements
exactly as the input had them: filtering the sorted list by a predicate
whose satisfying elements are pairwise `le` gives the input's filter. -/
theorem pySorted_filter_eq {α : Type} (le : α → α → Bool)
    (htrans : ∀ a b c, le a b = true → le b c = true → le a c = true)
    (htotal : ∀ a b, (le a b || le b a) = true)
    (p : α → Bool) (hp : ∀ a b, p a = true → p b = true → le a b = true)
    (l : List α) : (pySorted le l).filter p = l.filter p := by
  have hpw : (l.filter p).Pairwise (fun a b => le a b = true) :=
    List.pairwise_of_forall_mem_list (fun a ha b hb =>
      hp a b (List.mem_filter.mp ha).2 (List.mem_filter.mp hb).2)
  have h1 : (l.filter p).Sublist (pySorted le l) :=
    sublist_pySorted le hpw (List.filter_sublist l)
  have h2 : ((l.filter p).filter p).Sublist ((pySorted le l).filter p) :=
    h1.filter p
  rw [List.filter_eq_self.mpr (fun a ha => (List.mem_filter.mp ha).2)] at h2
  have hlen : (l.filter p).length = ((pySorted le l).filter p).length := by
    rw [← List.countP_eq_length_filter, ← List.countP_eq_length_filter]
    exact ((pySorted_perm le l).countP_eq p).symm
  exact (h2.eq_of_length hlen).symm

/-- The head of a stable sort is the first element of the input that
attains the minimum (every earlier element is strictly above it). -/
theorem pySorted_head_first_min {α : Type} (le : α → α → Bool)
    (htrans : ∀ a b c, le a b = true → le b c = true → le a c = true)
    (htotal : ∀ a b, (le a b || le b a) = true)
    {l xs : List α} {x : α} (h : pySorted le l = x :: xs) :
    ∃ l₁ l₂, l = l₁ ++ x :: l₂ ∧ (∀ y ∈ l, le x y = true) ∧
      ∀ y ∈ l₁, le y x = false := by
  have hrefl : ∀ a : α, le a a = true := fun a => by
    have := htotal a a
    simpa using this
  have hmin : ∀ y ∈ l, le x y = true := by
    intro y hy
    have hy2 : y ∈ x :: xs := by
      rw [← h]
      exact (pySorted_perm le l).mem_iff.mpr hy
    rcases List.mem_cons.mp hy2 with rfl | hy3
    · exact hrefl y
    · have hpw := pairwise_pySorted le htrans htotal l
      rw [h] at hpw
      exact List.rel_of_pairwise_cons hpw hy3
  have hfil := pySorted_filter_eq le htrans htotal
      (fun y => le x y && le y x)
      (fun a b ha hb => by
        simp only [Bool.and_eq_true] at ha hb
        exact htrans a x b ha.2 hb.1) l
  rw [h] at hfil
  have hx : (le x x && le x x) = true := by rw [hrefl x]; rfl
  have hcons : l.filter (fun y => le x y && le y x) =
      x :: (xs.filter (fun y => le x y && le y x)) := by
    rw [← hfil, List.filter_cons, if_pos hx]
  obtain ⟨l₁, l₂, hsplit, hl₁, -, -⟩ := List.filter_eq_cons_iff.mp hcons
  refine ⟨l₁, l₂, hsplit, hmin, ?_⟩
  intro y hy
  have hxy : le x y = true := by
    refine hmin y ?_
    rw [hsplit]
    exact List.mem_append.mpr (Or.inl hy)
  have hnp := hl₁ y hy
  cases hyx : le y x
  · rfl
  · exact absurd (by rw [hxy, hyx]; rfl) hnp

/-- C1: sorting the incident queue yields a permutation of the input that
is ordered by timestamp ascending, breaks timestamp ties by strictly
higher severity priority first, and is stable on events that agree in both
keys (their filter is preserved). -/
theorem incident_queue_total_order (l : List WildfireEvent) :
    (pythonSortEvents l).Perm l ∧
    (pythonSortEvents l).Pairwise (fun a b =>
      a.timestamp < b.timestamp ∨
        (a.timestamp = b.timestamp ∧ b.severity.priority ≤ a.severity.priority)) ∧
    ∀ (t : Int) (pr : Nat),
      (pythonSortEvents l).filter
          (fun e => decide (e.timestamp = t) && decide (e.severity.priority = pr)) =
        l.filter
          (fun e => decide (e.timestamp = t) && decide (e.severity.priority = pr)) := by
  refine ⟨pySorted_perm eventSortLE l, ?_, ?_⟩
  · have hpw := pairwise_pySorted eventSortLE eventSortLE_trans eventSortLE_total l
    exact hpw.imp (fun h => (eventSortLE_iff _ _).mp h)
  · intro t pr
    refine pySorted_filter_eq eventSortLE eventSortLE_trans eventSortLE_total _ ?_ l
    intro a b ha hb
    rw [eventSortLE_iff]
    simp only [Bool.and_eq_true, decide_eq_true_eq] at ha hb
    right
    constructor <;> omega

/-- C2: candidate selection ignores the severity argument; it returns
`none` exactly when no resource has available units; and when it returns a
name, that name belongs to the first available resource of minimum cost
(every available resource costs at least as much, and every available
resource listed earlier costs strictly more). -/
theorem select_candidate_spec (pool : Pool) (s1 s2 : Severity) :
    get_best_available_resource pool s1 = get_best_available_resource pool s2 ∧
    match get_best_available_resource pool s1 with
    | none => availableEntries pool = []
    | some n =>
      ∃ l₁ r l₂, availableEntries pool = l₁ ++ r :: l₂ ∧ r.1 = n ∧
        (∀ x ∈ availableEntries pool, r.2.cost ≤ x.2.cost) ∧
        ∀ x ∈ l₁, r.2.cost < x.2.cost := by
  refine ⟨rfl, ?_⟩
  rcases havail : availableEntries pool with - | ⟨a, rest⟩
  · simp [get_best_available_resource, havail]
  · have hlen : (pySorted costLE (a :: rest)).length = rest.length + 1 := by
      simpa using (pySorted_perm costLE (a :: rest)).length_eq
    rcases hms : pySorted costLE (a :: rest) with - | ⟨x, xs⟩
    · rw [hms] at hlen
      simp at hlen
    · have hbest : get_best_available_resource pool s1 = some x.1 := by
        simp [get_best_available_resource, havail, hms]
      rw [hbest]
      obtain ⟨l₁, l₂, hsplit, hmin, hfirst⟩ :=
        pySorted_head_first_min costLE costLE_trans costLE_total hms
      refine ⟨l₁, x, l₂, hsplit, rfl, ?_, ?_⟩
      · intro y hy
        have := hmin y hy
        simpa [costLE] using this
      · intro y hy
        have h1 := hfirst y hy
        have h2 : x.2.cost ≤ y.2.cost := by
          have := hmin y (by rw [hsplit]; exact List.mem_append.mpr (Or.inl hy))
          simpa [costLE] using this
        have h3 : ¬ (y.2.cost ≤ x.2.cost) := by
          intro hc
          rw [show costLE y x = true by simpa [costLE] using hc] at h1
          cases h1
        omega

/-! ### Pool construction and mutation -/

theorem incrIfNamed_fst (name : String) (p : String × ResourceType) :
    (incrIfNamed name p).1 = p.1 := by
  unfold incrIfNamed
  by_cases h : p.1 = name <;> simp [h]

theorem map_incr_fst (pool : Pool) (name : String) :
    (pool.map (incrIfNamed name)).map Prod.fst = pool.map Prod.fst := by
  rw [List.map_map]
  exact List.map_congr_left (fun p _ => incrIfNamed_fst name p)

theorem lookup_map_incr (pool : Pool) (name m : String) :
    lookupResource (pool.map (incrIfNamed name)) m =
      if m == name
      then (lookupResource pool m).map
        (fun r => { r with used_units := r.used_units + 1 })
      else lookupResource pool m := by
  have hpred : ((fun p : String × ResourceType => p.1 == m) ∘ incrIfNamed name) =
      (fun p : String × ResourceType => p.1 == m) :=
    funext (fun p => by simp [Function.comp, incrIfNamed_fst])
  have hfind : (pool.map (incrIfNamed name)).find? (fun p => p.1 == m) =
      (pool.find? (fun p => p.1 == m)).map (incrIfNamed name) := by
    rw [List.find?_map, hpred]
  unfold lookupResource
  rw [hfind]
  cases hf : pool.find? (fun p => p.1 == m) with
  | none => by_cases h : m = name <;> simp [h]
  | some pr =>
    have hpr : pr.1 = m := by simpa using List.find?_some hf
    by_cases h : m = name
    · subst h
      simp [incrIfNamed, hpr]
    · have hne : pr.1 ≠ name := fun hc => h (hpr ▸ hc)
      simp [incrIfNamed, hne, h]

theorem dictUpdate_grows (extra : List (String × ResourceConfig)) :
    ∀ acc : List (String × ResourceConfig),
      acc.length ≤ (dictUpdate acc extra).length ∧
      ∀ k, k ∈ acc.map Prod.fst → k ∈ (dictUpdate acc extra).map Prod.fst := by
  induction extra with
  | nil => exact fun acc => ⟨Nat.le_refl _, fun k hk => hk⟩
  | cons kv extra ih =>
    intro acc
    have hstep : acc.length ≤
        (if acc.any (fun p => p.1 == kv.1)
         then acc.map (fun p => if p.1 == kv.1 then kv else p)
         else acc ++ [kv]).length ∧
        ∀ k, k ∈ acc.map Prod.fst →
          k ∈ (if acc.any (fun p => p.1 == kv.1)
               then acc.map (fun p => if p.1 == kv.1 then kv else p)
               else acc ++ [kv]).map Prod.fst := by
      by_cases hany : acc.any (fun p => p.1 == kv.1)
      · have hkeys : (acc.map (fun p => if p.1 == kv.1 then kv else p)).map Prod.fst =
            acc.map Prod.fst := by
          rw [List.map_map]
          refine List.map_congr_left (fun p _ => ?_)
          by_cases h : p.1 = kv.1 <;> simp [Function.comp, h]
        rw [if_pos hany]
        exact ⟨by simp, fun k hk => by rw [hkeys]; exact hk⟩
      · rw [if_neg hany]
        refine ⟨by simp, fun k hk => ?_⟩
        rw [List.map_append]
        exact List.mem_append.mpr (Or.inl hk)
    have hrec := ih (if acc.any (fun p => p.1 == kv.1)
      then acc.map (fun p => if p.1 == kv.1 then kv else p)
      else acc ++ [kv])
    refine ⟨Nat.le_trans hstep.1 ?_, fun k hk => ?_⟩
    · exact hrec.1
    · exact hrec.2 k (hstep.2 k hk)

theorem makePool_keys (custom : List (String × ResourceConfig)) :
    (makePool custom).map Prod.fst =
      (dictUpdate DEFAULT_RESOURCES custom).map Prod.fst := by
  unfold makePool
  rw [List.map_map]
  rfl

/-- C10: whatever custom configuration is supplied, the constructed pool
still contains all five built-in resource kinds (a custom entry can
override or extend, never remove), so the pool has at least five kinds. -/
theorem builtin_kinds_unremovable (custom : List (String × ResourceConfig)) :
    "smoke_jumpers" ∈ (makePool custom).map Prod.fst ∧
    "fire_engines" ∈ (makePool custom).map Prod.fst ∧
    "helicopters" ∈ (makePool custom).map Prod.fst ∧
    "tanker_planes" ∈ (makePool custom).map Prod.fst ∧
    "ground_crews" ∈ (makePool custom).map Prod.fst ∧
    5 ≤ (makePool custom).length := by
  have hgrow := dictUpdate_grows custom DEFAULT_RESOURCES
  have hmem : ∀ k, k ∈ DEFAULT_RESOURCES.map Prod.fst →
      k ∈ (makePool custom).map Prod.fst := by
    intro k hk
    rw [makePool_keys]
    exact hgrow.2 k hk
  have hlen : 5 ≤ (makePool custom).length := by
    have h1 : (makePool custom).length =
        (dictUpdate DEFAULT_RESOURCES custom).length := by
      unfold makePool
      simp
    rw [h1]
    exact hgrow.1
  exact ⟨hmem _ (by decide), hmem _ (by decide), hmem _ (by decide),
    hmem _ (by decide), hmem _ (by decide), hlen⟩

/-- C4 counterexample: committing a name that is not in the pool raises
`KeyError` (modelled as `none`) instead of returning `false` without
mutation. -/
theorem assign_missing_name_raises :
    assign_resource (makePool []) "water_bombers" = none ∧
    assign_resource (makePool []) "water_bombers" ≠ some (makePool [], false) := by
  constructor
  · rfl
  · intro h
    cases h

/-- C4 (amended): for a name present in the pool, `assign_resource`
increments exactly that resource's `used_units` by one and returns `true`
when it has available units, and returns `false` with no mutation when it
does not; for a name not in the pool it raises `KeyError` (`none`) rather
than returning `false`. -/
theorem assign_resource_spec (pool : Pool) (name : String) :
    match lookupResource pool name with
    | none => assign_resource pool name = none
    | some r =>
      if 0 < r.available_units
      then ∃ pool2, assign_resource pool name = some (pool2, true) ∧
        pool2.map Prod.fst = pool.map Prod.fst ∧
        lookupResource pool2 name = some { r with used_units := r.used_units + 1 } ∧
        ∀ m, m ≠ name → lookupResource pool2 m = lookupResource pool m
      else assign_resource pool name = some (pool, false) := by
  cases hl : lookupResource pool name with
  | none => simp [assign_resource, hl]
  | some r =>
    dsimp only
    by_cases h : 0 < r.available_units
    · rw [if_pos h]
      refine ⟨pool.map (incrIfNamed name), by simp [assign_resource, hl, h],
        map_incr_fst pool name, ?_, ?_⟩
      · rw [lookup_map_incr, if_pos (by simp), hl]
        rfl
      · intro m hm
        rw [lookup_map_incr, if_neg (by simp [hm])]
    · rw [if_neg h]
      simp [assign_resource, hl, h]

/-! ### Loading incident batches -/

theorem load_data_aux_fail (bad : RawRecord) (post : List RawRecord)
    (hbad : parseRow bad = none) :
    ∀ (pre : List RawRecord) (events : List WildfireEvent),
      (∀ r ∈ pre, (parseRow r).isSome) →
      load_data_aux events (pre ++ bad :: post) =
        (events ++ pre.filterMap parseRow, false) := by
  intro pre
  induction pre with
  | nil =>
    intro events _
    simp [load_data_aux, hbad]
  | cons r pre ih =>
    intro events hpre
    obtain ⟨e, he⟩ := Option.isSome_iff_exists.mp (hpre r (List.mem_cons_self r pre))
    have h1 : load_data_aux events ((r :: pre) ++ bad :: post) =
        load_data_aux (events ++ [e]) (pre ++ bad :: post) := by
      simp only [List.cons_append, load_data_aux, he]
      rfl
    rw [h1, ih (events ++ [e]) (fun q hq => hpre q (List.mem_cons_of_mem r hq))]
    simp [List.filterMap_cons, he, List.append_assoc]

/-- C3 counterexample: a batch whose second record has severity
`"urgent"` fails the load, yet the event parsed from the valid first
record is retained in the system's event collection. -/
theorem load_bad_severity_keeps_prefix :
    (load_data (mkSystem [] []) [⟨5, 1, "a", "low"⟩, ⟨3, 1, "b", "urgent"⟩]).2 = false ∧
    (load_data (mkSystem [] []) [⟨5, 1, "a", "low"⟩, ⟨3, 1, "b", "urgent"⟩]).1.events =
      [{ timestamp := 5, fire_start_time := 1, location := "a",
         severity := Severity.low }] := by
  exact ⟨rfl, rfl⟩

/-- C3 (amended): an unrecognized severity token fails the whole load at
the first bad record — the error propagates immediately, the remaining
records are not read and the queue is not sorted — but the events parsed
from the valid records preceding the bad one remain appended to the
system's event collection. -/
theorem load_data_fail_fast (st : SystemState) (pre : List RawRecord)
    (bad : RawRecord) (post : List RawRecord)
    (hpre : ∀ r ∈ pre, (parseRow r).isSome)
    (hbad : parseRow bad = none) :
    load_data st (pre ++ bad :: post) =
      ({ st with events := st.events ++ pre.filterMap parseRow }, false) := by
  unfold load_data
  rw [load_data_aux_fail bad post hbad pre st.events hpre]

theorem load_data_fail_fast_witness :
    load_data (mkSystem [] []) ([⟨5, 1, "a", "low"⟩] ++ ⟨3, 1, "b", "urgent"⟩ :: [⟨4, 1, "c", "high"⟩]) =
      ({ mkSystem [] [] with
          events := (mkSystem [] []).events ++
            [(⟨5, 1, "a", "low"⟩ : RawRecord)].filterMap parseRow }, false) :=
  load_data_fail_fast (mkSystem [] []) [⟨5, 1, "a", "low"⟩] ⟨3, 1, "b", "urgent"⟩
    [⟨4, 1, "c", "high"⟩] (by decide) (by decide)

/-! ### Capacity invariant -/

theorem nodup_find? (pool : Pool) (p : String × ResourceType) (name : String)
    (hnd : (pool.map Prod.fst).Nodup) (hmem : p ∈ pool) (hname : p.1 = name) :
    pool.find? (fun q => q.1 == name) = some p := by
  induction pool with
  | nil => cases hmem
  | cons q rest ih =>
    rcases List.mem_cons.mp hmem with rfl | hmem2
    · exact List.find?_cons_of_pos rest (by simp [hname])
    · rw [List.map_cons] at hnd
      have hnd2 := List.nodup_cons.mp hnd
      have hq : q.1 ≠ name := by
        intro hc
        exact hnd2.1 (hc ▸ hname ▸ List.mem_map_of_mem Prod.fst hmem2)
      rw [List.find?_cons_of_neg rest (by simp [hq])]
      exact ih hnd2.2 hmem2

theorem poolInv_iff (pool : Pool) :
    poolInv pool = true ↔
      ∀ p ∈ pool, 0 ≤ p.2.used_units ∧ p.2.used_units ≤ p.2.total_units := by
  simp [poolInv, List.all_eq_true]

theorem assign_preserves_inv (pool : Pool) (name : String) (pool2 : Pool) (b : Bool)
    (hnd : (pool.map Prod.fst).Nodup) (hinv : poolInv pool = true)
    (hassign : assign_resource pool name = some (pool2, b)) :
    poolInv pool2 = true ∧ pool2.map Prod.fst = pool.map Prod.fst := by
  cases hl : lookupResource pool name with
  | none =>
    simp only [assign_resource, hl] at hassign
    cases hassign
  | some r =>
    simp only [assign_resource, hl] at hassign
    by_cases h : 0 < r.available_units
    · rw [if_pos h] at hassign
      have hpool2 : pool2 = pool.map (incrIfNamed name) :=
        (congrArg Prod.fst (Option.some.inj hassign)).symm
      subst hpool2
      refine ⟨?_, map_incr_fst pool name⟩
      rw [poolInv_iff]
      intro p2 hp2
      obtain ⟨p, hp, hpe⟩ := List.mem_map.mp hp2
      by_cases hpn : p.1 = name
      · have hfind : pool.find? (fun q => q.1 == name) = some p :=
          nodup_find? pool p name hnd hp hpn
        have hr : p.2 = r := by
          have : lookupResource pool name = some p.2 := by
            simp [lookupResource, hfind]
          rw [this] at hl
          exact Option.some.inj hl
        have hup : (incrIfNamed name p).2.used_units = r.used_units + 1 := by
          simp [incrIfNamed, hpn, hr]
        have htot : (incrIfNamed name p).2.total_units = r.total_units := by
          simp [incrIfNamed, hpn, hr]
        have hold := (poolInv_iff pool).mp hinv p hp
        rw [← hpe]
        refine ⟨?_, ?_⟩
        · rw [hup]
          have := hold.1
          rw [hr] at this
          omega
        · rw [hup, htot]
          unfold ResourceType.available_units at h
          omega
      · have : incrIfNamed name p = p := by
          simp [incrIfNamed, hpn]
        rw [← hpe, this]
        exact (poolInv_iff pool).mp hinv p hp
    · rw [if_neg h] at hassign
      have hpool2 : pool2 = pool :=
        (congrArg Prod.fst (Option.some.inj hassign)).symm
      subst hpool2
      exact ⟨hinv, rfl⟩

theorem commitList_preserves_inv (names : List String) (pool : Pool)
    (hnd : (pool.map Prod.fst).Nodup) (hinv : poolInv pool = true) :
    poolInv (commitList pool names) = true := by
  induction names generalizing pool with
  | nil => exact hinv
  | cons n rest ih =>
    unfold commitList
    cases ha : assign_resource pool n with
    | none => exact hinv
    | some res =>
      obtain ⟨hinv2, hkeys⟩ := assign_preserves_inv pool n res.1 res.2 hnd hinv ha
      exact ih res.1 (hkeys ▸ hnd) hinv2

/-- C5 counterexample: the public constructor accepts a configuration
whose `used_units` exceeds `total_units`, so the capacity invariant does
not hold in the initial pool for every configuration. -/
theorem construction_can_violate_capacity :
    poolInv (makePool [("smoke_jumpers", ⟨none, none, some 5, some 7⟩)]) = false := by
  rfl

/-- C5 (amended): the capacity invariant `0 ≤ used_units ≤ total_units`
is preserved by any number of `assign_resource` calls on a pool with
distinct resource names, and it holds in the default-constructed pool;
construction from an arbitrary configuration need not satisfy it, since
the configuration itself may supply out-of-range unit counts. -/
theorem capacity_invariant_preserved (pool : Pool) (names : List String)
    (hnd : (pool.map Prod.fst).Nodup) (hinv : poolInv pool = true) :
    poolInv (commitList pool names) = true ∧ poolInv (makePool []) = true :=
  ⟨commitList_preserves_inv names pool hnd hinv, rfl⟩

theorem capacity_invariant_preserved_witness :
    poolInv (commitList (makePool [])
      ["fire_engines", "fire_engines", "tanker_planes", "tanker_planes",
        "tanker_planes", "no_such_resource"]) = true ∧
    poolInv (makePool []) = true :=
  capacity_invariant_preserved (makePool []) _ (by decide) (by rfl)

/-! ### Selection and commit inside the dispatch loop -/

theorem get_best_mem (pool : Pool) (s : Severity) (n : String)
    (h : get_best_available_resource pool s = some n) :
    ∃ p, p ∈ pool ∧ p.1 = n ∧ 0 < p.2.available_units := by
  unfold get_best_available_resource at h
  rcases havail : availableEntries pool with - | ⟨a, rest⟩
  · rw [havail] at h
    cases h
  · rw [havail] at h
    have h2 : Option.map Prod.fst ((pySorted costLE (a :: rest)).head?) = some n := h
    rcases hms : pySorted costLE (a :: rest) with - | ⟨x, xs⟩
    · have hlen := congrArg List.length hms
      rw [(pySorted_perm costLE (a :: rest)).length_eq] at hlen
      simp at hlen
    · rw [hms] at h2
      simp only [List.head?_cons, Option.map_some] at h2
      have hx : x ∈ pySorted costLE (a :: rest) := by
        rw [hms]
        exact List.mem_cons_self x xs
      have hx2 : x ∈ availableEntries pool := by
        rw [havail]
        exact (pySorted_perm costLE (a :: rest)).mem_iff.mp hx
      have hx3 := List.mem_filter.mp hx2
      exact ⟨x, hx3.1, Option.some.inj h2, by simpa using hx3.2⟩

/-- C9 counterexample: with a custom resource keyed by the empty string
(cheapest and available), candidate selection returns that name, but the
Python truthiness test in `_handle_event` discards it, so the incident is
MISSED even though selection did not return `None`. -/
theorem empty_name_breaks_missed_iff :
    get_best_available_resource
        (mkSystem [("", ⟨none, some 1, some 1, none⟩)] []).pool Severity.high =
      some "" ∧
    (handle_event (mkSystem [("", ⟨none, some 1, some 1, none⟩)] [])
        { timestamp := 1, fire_start_time := 0, location := "x",
          severity := Severity.high }
        (some "")).map
        (fun r => (r.2.handled, r.1.event_log.map LogEntry.isSuccessRecord)) =
      some (false, [false]) := by
  exact ⟨rfl, rfl⟩

/-- C9 (amended): on a pool with distinct, non-empty resource names,
whenever candidate selection returns a name the immediately following
commit succeeds, so `_handle_event` never raises and an incident is
MISSED exactly when selection returned `None`.  (With a resource named by
the empty string, selection can return a candidate that Python truthiness
then discards, missing the incident.) -/
theorem dispatch_commit_consistency (st : SystemState) (ev : WildfireEvent)
    (hnd : (st.pool.map Prod.fst).Nodup)
    (hne : ∀ p ∈ st.pool, p.1 ≠ "") :
    ∃ st2 ev2,
      handle_event st ev (get_best_available_resource st.pool ev.severity) =
        some (st2, ev2) ∧
      (ev2.handled = false ↔
        get_best_available_resource st.pool ev.severity = none) := by
  cases hb : get_best_available_resource st.pool ev.severity with
  | none =>
    refine ⟨(handle_missed_response st ev).1, (handle_missed_response st ev).2,
      by simp [handle_event], ?_⟩
    simp [handle_missed_response]
  | some n =>
    obtain ⟨p, hmem, hpn, hav⟩ := get_best_mem st.pool ev.severity n hb
    have hne2 : n ≠ "" := hpn ▸ hne p hmem
    have hfind : st.pool.find? (fun q => q.1 == n) = some p :=
      nodup_find? st.pool p n hnd hmem hpn
    have hlook : lookupResource st.pool n = some p.2 := by
      simp [lookupResource, hfind]
    have hassign : assign_resource st.pool n =
        some (st.pool.map (incrIfNamed n), true) := by
      simp [assign_resource, hlook, hav]
    have hlook2 : lookupResource (st.pool.map (incrIfNamed n)) n =
        some { p.2 with used_units := p.2.used_units + 1 } := by
      rw [lookup_map_incr, if_pos (by simp), hlook]
      rfl
    have hhe : handle_event st ev (some n) =
        handle_successful_response { st with pool := st.pool.map (incrIfNamed n) } ev n := by
      simp [handle_event, hne2, hassign]
    rw [hhe]
    unfold handle_successful_response
    rw [show ({ st with pool := st.pool.map (incrIfNamed n) } : SystemState).pool =
      st.pool.map (incrIfNamed n) from rfl, hlook2]
    exact ⟨_, _, rfl, by simp⟩

theorem dispatch_commit_consistency_witness :
    ∃ st2 ev2,
      handle_event (mkSystem [] [])
          { timestamp := 3, fire_start_time := 1, location := "z",
            severity := Severity.medium }
          (get_best_available_resource (mkSystem [] []).pool Severity.medium) =
        some (st2, ev2) ∧
      (ev2.handled = false ↔
        get_best_available_resource (mkSystem [] []).pool Severity.medium = none) :=
  dispatch_commit_consistency (mkSystem [] [])
    { timestamp := 3, fire_start_time := 1, location := "z",
      severity := Severity.medium }
    (by decide) (by decide)

/-! ### Accounting and outcome bookkeeping of one dispatch step -/

theorem successCostSum_append (l1 l2 : List LogEntry) :
    successCostSum (l1 ++ l2) = successCostSum l1 + successCostSum l2 := by
  simp [successCostSum]

theorem missedDamageSum_append (dmg : SeverityTable Int) (l1 l2 : List LogEntry) :
    missedDamageSum dmg (l1 ++ l2) =
      missedDamageSum dmg l1 + missedDamageSum dmg l2 := by
  simp [missedDamageSum]

theorem handle_event_effect (st : SystemState) (ev : WildfireEvent)
    (rn : Option String) (st2 : SystemState) (ev2 : WildfireEvent)
    (h : handle_event st ev rn = some (st2, ev2)) :
    st2.damage_costs = st.damage_costs ∧
    ((∃ nm c,
        st2.event_log = st.event_log ++
          [LogEntry.success ev.timestamp ev.severity nm c] ∧
        st2.operational_costs = st.operational_costs + c ∧
        st2.missed_response_costs = st.missed_response_costs ∧
        ev2.handled = true ∧ ev2.assigned_resource.isSome = true) ∨
      (st2.event_log = st.event_log ++
          [LogEntry.missed ev.timestamp ev.severity (st.damage_costs.get ev.severity)] ∧
        st2.missed_response_costs =
          st.missed_response_costs + st.damage_costs.get ev.severity ∧
        st2.operational_costs = st.operational_costs ∧
        ev2.handled = false ∧ ev2.assigned_resource = ev.assigned_resource)) := by
  cases rn with
  | none =>
    simp only [handle_event] at h
    have hst : st2 = (handle_missed_response st ev).1 :=
      (congrArg Prod.fst (Option.some.inj h)).symm
    have hev : ev2 = (handle_missed_response st ev).2 :=
      (congrArg Prod.snd (Option.some.inj h)).symm
    subst hst
    subst hev
    exact ⟨rfl, Or.inr ⟨rfl, rfl, rfl, rfl, rfl⟩⟩
  | some n =>
    simp only [handle_event] at h
    by_cases hn : n = ""
    · rw [if_neg (by simp [hn])] at h
      have hst : st2 = (handle_missed_response st ev).1 :=
        (congrArg Prod.fst (Option.some.inj h)).symm
      have hev : ev2 = (handle_missed_response st ev).2 :=
        (congrArg Prod.snd (Option.some.inj h)).symm
      subst hst
      subst hev
      exact ⟨rfl, Or.inr ⟨rfl, rfl, rfl, rfl, rfl⟩⟩
    · rw [if_pos hn] at h
      cases hassign : assign_resource st.pool n with
      | none =>
        rw [hassign] at h
        cases h
      | some pr =>
        rcases pr with ⟨pool2, b⟩
        rw [hassign] at h
        cases b with
        | false =>
          have hst : st2 = (handle_missed_response { st with pool := pool2 } ev).1 :=
            (congrArg Prod.fst (Option.some.inj h)).symm
          have hev : ev2 = (handle_missed_response { st with pool := pool2 } ev).2 :=
            (congrArg Prod.snd (Option.some.inj h)).symm
          subst hst
          subst hev
          exact ⟨rfl, Or.inr ⟨rfl, rfl, rfl, rfl, rfl⟩⟩
        | true =>
          simp only [handle_successful_response] at h
          cases hlook : lookupResource pool2 n with
          | none =>
            rw [hlook] at h
            cases h
          | some r =>
            rw [hlook] at h
            have h3 := Option.some.inj h
            rw [Prod.mk.injEq] at h3
            obtain ⟨hst, hev⟩ := h3
            subst hst
            subst hev
            exact ⟨rfl, Or.inl ⟨r.name, r.cost, rfl, rfl, rfl, rfl, rfl⟩⟩

theorem process_aux_accounting :
    ∀ (pending : List WildfireEvent) (st : SystemState)
      (done : List WildfireEvent) (st2 : SystemState),
      process_events_aux st done pending = some st2 →
      st.operational_costs = successCostSum st.event_log →
      st.missed_response_costs = missedDamageSum st.damage_costs st.event_log →
      st2.damage_costs = st.damage_costs ∧
      st2.operational_costs = successCostSum st2.event_log ∧
      st2.missed_response_costs = missedDamageSum st2.damage_costs st2.event_log := by
  intro pending
  induction pending with
  | nil =>
    intro st done st2 h hop hmc
    simp only [process_events_aux] at h
    have hst : st2 = { st with events := done } := (Option.some.inj h).symm
    subst hst
    exact ⟨rfl, hop, hmc⟩
  | cons ev rest ih =>
    intro st done st2 h hop hmc
    simp only [process_events_aux] at h
    cases hhe : handle_event st ev (get_best_available_resource st.pool ev.severity) with
    | none =>
      rw [hhe] at h
      cases h
    | some pr =>
      rcases pr with ⟨st1, ev1⟩
      rw [hhe] at h
      obtain ⟨hdmg, hcase⟩ := handle_event_effect st ev _ st1 ev1 hhe
      have hop1 : st1.operational_costs = successCostSum st1.event_log := by
        rcases hcase with ⟨nm, c, hlog, hopc, -, -, -⟩ | ⟨hlog, -, hopc, -, -⟩
        · rw [hlog, successCostSum_append, ← hop, hopc]
          simp [successCostSum]
        · rw [hlog, successCostSum_append, ← hop, hopc]
          simp [successCostSum]
      have hmc1 : st1.missed_response_costs =
          missedDamageSum st1.damage_costs st1.event_log := by
        rcases hcase with ⟨nm, c, hlog, -, hmcc, -, -⟩ | ⟨hlog, hmcc, -, -, -⟩
        · rw [hlog, hdmg, missedDamageSum_append, ← hmc, hmcc]
          simp [missedDamageSum]
        · rw [hlog, hdmg, missedDamageSum_append, ← hmc, hmcc]
          simp [missedDamageSum]
      obtain ⟨hd2, ho2, hm2⟩ := ih st1 (done ++ [ev1]) st2 h hop1 hmc1
      exact ⟨hd2.trans hdmg, ho2, hm2⟩

/-- C6: starting from a freshly constructed system, after processing any
incident queue the running `operational_costs` equals the sum of the
`cost` recorded in the SUCCESS log entries, and `missed_response_costs`
equals the sum of the per-severity damage constants over the MISSED log
entries. -/
theorem accounting_identity (custom_resources : List (String × ResourceConfig))
    (custom_damage_costs : List (String × Int)) (evs : List WildfireEvent)
    (st2 : SystemState)
    (h : process_events
        { mkSystem custom_resources custom_damage_costs with events := evs } =
      some st2) :
    st2.operational_costs = successCostSum st2.event_log ∧
    st2.missed_response_costs = missedDamageSum st2.damage_costs st2.event_log := by
  have h2 : process_events_aux
      { mkSystem custom_resources custom_damage_costs with events := evs } [] evs =
      some st2 := h
  have h3 := process_aux_accounting evs _ [] st2 h2 rfl rfl
  exact ⟨h3.2.1, h3.2.2⟩

theorem accounting_identity_witness :
    demoRun.operational_costs = successCostSum demoRun.event_log ∧
    demoRun.missed_response_costs =
      missedDamageSum demoRun.damage_costs demoRun.event_log :=
  accounting_identity [] [] demoEvents demoRun (by rfl)

theorem handle_event_outcome (st : SystemState) (ev : WildfireEvent)
    (rn : Option String) (st2 : SystemState) (ev2 : WildfireEvent)
    (ha : ev.assigned_resource = none)
    (h : handle_event st ev rn = some (st2, ev2)) :
    ∃ entry, st2.event_log = st.event_log ++ [entry] ∧ OutcomePaired ev2 entry := by
  obtain ⟨-, hcase⟩ := handle_event_effect st ev rn st2 ev2 h
  rcases hcase with ⟨nm, c, hlog, -, -, hh, hs⟩ | ⟨hlog, -, -, hh, hs⟩
  · refine ⟨LogEntry.success ev.timestamp ev.severity nm c, hlog, ?_, ?_, ?_⟩
    · rw [hh]
      rfl
    · intro _
      exact Option.isSome_iff_exists.mp hs
    · intro hf
      rw [hh] at hf
      exact Bool.noConfusion hf
  · refine ⟨LogEntry.missed ev.timestamp ev.severity (st.damage_costs.get ev.severity),
      hlog, ?_, ?_, ?_⟩
    · rw [hh]
      rfl
    · intro ht
      rw [hh] at ht
      exact Bool.noConfusion ht
    · intro _
      rw [hs, ha]

theorem process_aux_outcomes :
    ∀ (pending : List WildfireEvent) (st : SystemState)
      (done : List WildfireEvent) (st2 : SystemState),
      process_events_aux st done pending = some st2 →
      (∀ e ∈ pending, e.assigned_resource = none) →
      ∃ evs2 log2, st2.events = done ++ evs2 ∧
        st2.event_log = st.event_log ++ log2 ∧
        List.Forall₂ OutcomePaired evs2 log2 := by
  intro pending
  induction pending with
  | nil =>
    intro st done st2 h _
    simp only [process_events_aux] at h
    have hst : st2 = { st with events := done } := (Option.some.inj h).symm
    subst hst
    exact ⟨[], [], by simp, by simp, List.Forall₂.nil⟩
  | cons ev rest ih =>
    intro st done st2 h hassigned
    simp only [process_events_aux] at h
    cases hhe : handle_event st ev (get_best_available_resource st.pool ev.severity) with
    | none =>
      rw [hhe] at h
      cases h
    | some pr =>
      rcases pr with ⟨st1, ev1⟩
      rw [hhe] at h
      obtain ⟨entry, hlog1, hpair⟩ := handle_event_outcome st ev _ st1 ev1
        (hassigned ev (List.mem_cons_self ev rest)) hhe
      obtain ⟨evs2, log2, he2, hl2, hf⟩ := ih st1 (done ++ [ev1]) st2 h
        (fun e he => hassigned e (List.mem_cons_of_mem ev he))
      refine ⟨ev1 :: evs2, entry :: log2, ?_, ?_, List.Forall₂.cons hpair hf⟩
      · rw [he2]
        simp
      · rw [hl2, hlog1]
        simp

/-- C7: after `process_events` on a freshly constructed system whose
incidents start with no assigned resource, each processed incident is
aligned with its own log entry, and for each pair: `handled` holds iff an
assigned resource name is set, `handled` holds iff the entry is a SUCCESS
record, and a missed incident has `handled = false`, no assigned
resource, and a MISSED entry. -/
theorem outcome_consistency (custom_resources : List (String × ResourceConfig))
    (custom_damage_costs : List (String × Int)) (evs : List WildfireEvent)
    (st2 : SystemState)
    (hassigned : ∀ e ∈ evs, e.assigned_resource = none)
    (h : process_events
        { mkSystem custom_resources custom_damage_costs with events := evs } =
      some st2) :
    List.Forall₂ (fun (ev : WildfireEvent) (entry : LogEntry) =>
      (ev.handled = true ↔ ∃ n, ev.assigned_resource = some n) ∧
      (ev.handled = true ↔ entry.isSuccessRecord = true) ∧
      (ev.handled = false →
        ev.assigned_resource = none ∧ entry.isSuccessRecord = false))
      st2.events st2.event_log := by
  have h2 : process_events_aux
      { mkSystem custom_resources custom_damage_costs with events := evs } [] evs =
      some st2 := h
  obtain ⟨evs2, log2, he2, hl2, hf⟩ := process_aux_outcomes evs _ [] st2 h2 hassigned
  have he2' : st2.events = evs2 := by simpa using he2
  have hl2' : st2.event_log = log2 := by simpa using hl2
  rw [he2', hl2']
  refine hf.imp (fun ev entry hop => ?_)
  obtain ⟨h1, hsome, hnone⟩ := hop
  refine ⟨⟨fun ht => hsome ht, fun hex => ?_⟩, ⟨fun ht => ?_, fun hs => ?_⟩, fun hfalse => ?_⟩
  · obtain ⟨n, hn⟩ := hex
    cases hh : WildfireEvent.handled _ with
    | true => rfl
    | false =>
      rw [hnone hh] at hn
      cases hn
  · rw [← h1]
    exact ht
  · exact h1.trans hs
  · exact ⟨hnone hfalse, by rw [← h1]; exact hfalse⟩

theorem outcome_consistency_witness :
    List.Forall₂ (fun (ev : WildfireEvent) (entry : LogEntry) =>
      (ev.handled = true ↔ ∃ n, ev.assigned_resource = some n) ∧
      (ev.handled = true ↔ entry.isSuccessRecord = true) ∧
      (ev.handled = false →
        ev.assigned_resource = none ∧ entry.isSuccessRecord = false))
      demoRun.events demoRun.event_log :=
  outcome_consistency [] [] demoEvents demoRun (by decide) (by rfl)

/-- C8: the report's average cost per response is the guarded quotient —
`operational_costs / addressed` when some incident was addressed and `0`
(not an error) when none was — and a freshly constructed system with no
incidents processes to a report whose counts, costs and average are all
zero. -/
theorem report_average_guarded (st : SystemState)
    (custom_resources : List (String × ResourceConfig))
    (custom_damage_costs : List (String × Int)) :
    (generate_report_data st).avg_cost_per_response =
      (if 0 < totalAddressed st
       then (st.operational_costs : Rat) / (totalAddressed st : Rat)
       else 0) ∧
    process_events (mkSystem custom_resources custom_damage_costs) =
      some (mkSystem custom_resources custom_damage_costs) ∧
    (generate_report_data (mkSystem custom_resources custom_damage_costs)).total_events = 0 ∧
    (generate_report_data (mkSystem custom_resources custom_damage_costs)).fires_addressed = 0 ∧
    (generate_report_data (mkSystem custom_resources custom_damage_costs)).fires_missed = 0 ∧
    (generate_report_data (mkSystem custom_resources custom_damage_costs)).operational_costs = 0 ∧
    (generate_report_data (mkSystem custom_resources custom_damage_costs)).damage_costs = 0 ∧
    (generate_report_data (mkSystem custom_resources custom_damage_costs)).addressed_report = ⟨0, 0, 0⟩ ∧
    (generate_report_data (mkSystem custom_resources custom_damage_costs)).missed_report = ⟨0, 0, 0⟩ ∧
    (generate_report_data (mkSystem custom_resources custom_damage_costs)).avg_cost_per_response = 0 :=
  ⟨rfl, rfl, rfl, rfl, rfl, rfl, rfl, rfl, rfl, rfl⟩

end WildfireSpec
